import Mathlib

/-!
Shallow embedding of `src/packages/preserve/lib/preserve.ts` (the `preserve`
async generator, its registry validation helpers, its BFS planner and its
sequential executor), together with theorems checking the natural-language
specification of the repository against this embedding.

Conventions of the embedding:
* JS `Map` values keyed by strings are association lists (`List (String × _)`
  or, for registries keyed by the module's own `name`, plain `List Recipe`),
  read through `lookupMap` / `findRecipe` and written through `setMap`,
  which mirrors `Map.prototype.set` (replace in place, else append).
* The JS `Set` `visited` is modelled by a `List String` used only through
  membership, exactly as the source only calls `visited.has` / `visited.add`.
* The `while (queue.length > 0)` planning loop is fuel-indexed
  (`planLoop`); `none` means the fuel ran out, `some` is the loop's result.
* A thrown JS exception is an `Except.error`; the `TypeError` raised by
  reading a property of `undefined` (when `recipes.get` misses) is the
  distinguished value `PlanFailure.typeError`.
* The out-of-scope step controller and the recipe computations are opaque:
  a run is parametrised by a behaviour function giving, per recipe
  activation, the controller's `begin`/`succeed`/`fail` event batches, the
  events the recipe's generator yields, its final label or thrown error,
  and the controller state observed after `succeed` (`RecipeOutcome`).
-/

namespace Preserve

/-- A recipe as the orchestrator sees it: a name and the names of its
dependencies (`Recipe` interface of `recipes.ts`; the `preserve` capability
is modelled separately as a behaviour function). -/
structure Recipe where
  name : String
  dependencies : List String
deriving DecidableEq

/-- The key list of a registry keyed by recipe name
(`Array.from(modules.keys())`). -/
def namesOf (reg : List Recipe) : List String :=
  reg.map Recipe.name

/-- Lookup in a recipe registry: `recipes.get(n)` for a `Map` keyed by each
recipe's own name. -/
def findRecipe (reg : List Recipe) (n : String) : Option Recipe :=
  reg.find? (fun r => decide (r.name = n))

/-- Structured content of the error thrown by `assertModuleExists`
(preserve.ts lines 141-146): the kind, the missing name and the registry's
key list. -/
structure UnknownModuleError where
  kind : String
  name : String
  choices : List String
deriving DecidableEq

/-- The message string interpolated at preserve.ts lines 143-144. -/
def moduleErrorMessage (u : UnknownModuleError) : String :=
  "Unknown " ++ u.kind ++ " with name " ++ u.name ++ ". " ++
    "Possible choices: [" ++ String.intercalate ", " u.choices ++ "]"

/-- `assertModuleExists` (preserve.ts lines 136-147): succeeds when the name
is a key of the registry, otherwise throws the unknown-module error. -/
def assertModuleExists (kind : String) (name : String) (keys : List String) :
    Except UnknownModuleError Unit :=
  if name ∈ keys then Except.ok () else Except.error ⟨kind, name, keys⟩

/-- Ways the planning phase can throw: the (dead) `assertRecipeExists` guard,
or the `TypeError` of reading `.name` on the `undefined` that `recipes.get`
returns for an unregistered name (preserve.ts lines 52-55). -/
inductive PlanFailure where
  | unknown (u : UnknownModuleError)
  | typeError
deriving DecidableEq

/-- The `unvisited` batch of one planning iteration (preserve.ts lines
61-63): the dependencies of the current recipe not yet in the visited set. -/
def unvisOf (r : Recipe) (visited : List String) : List String :=
  r.dependencies.filter (fun d => decide (d ∉ visited))

/-- The planning loop of `preserve` (preserve.ts lines 47-69), fuel-indexed.
State: the queue of names, the visited set, and the accumulated plan (which
the source fills with `unshift`, so the model prepends). Each iteration
dequeues a name, looks it up (an unregistered name makes `current.name`
throw a `TypeError` before the `assertRecipeExists` guard can fire), runs
the guard, prepends the recipe to the plan, and enqueues its unvisited
dependencies while adding them to the visited set. -/
def planLoop (reg : List Recipe) :
    Nat → List String → List String → List Recipe →
      Option (Except PlanFailure (List Recipe))
  | 0, _, _, _ => none
  | _ + 1, [], _, plan => some (Except.ok plan)
  | fuel + 1, name :: rest, visited, plan =>
    match findRecipe reg name with
    | none => some (Except.error PlanFailure.typeError)
    | some current =>
      match assertModuleExists "recipe" current.name (namesOf reg) with
      | Except.error u => some (Except.error (PlanFailure.unknown u))
      | Except.ok _ =>
        planLoop reg fuel (rest ++ unvisOf current visited)
          (visited ++ unvisOf current visited) (current :: plan)

/-- Lookup in a string-keyed JS `Map` modelled as an association list
(`Map.prototype.get`). -/
def lookupMap {A : Type _} : List (String × A) → String → Option A
  | [], _ => none
  | (k, v) :: rest, n => if n = k then some v else lookupMap rest n

/-- Write to a string-keyed JS `Map` modelled as an association list
(`Map.prototype.set`): an existing key keeps its position and gets the new
value, a fresh key is appended. -/
def setMap {A : Type _} : List (String × A) → String → A → List (String × A)
  | [], k, v => [(k, v)]
  | (k', v') :: rest, k, v =>
    if k' = k then (k', v) :: rest else (k', v') :: setMap rest k v

/-- Key list of an association-list map. -/
def keysOf {A : Type _} (m : List (String × A)) : List String :=
  m.map Prod.fst

/-- The controller lifecycle state as far as the executor inspects it
(preserve.ts line 122 only compares against `Processes.State.Done`). -/
inductive CtlState where
  | done
  | active
deriving DecidableEq

/-- The event union emitted by the step controller (`Processes.Event`),
polymorphic in the opaque label and error payloads. `scope` is the list of
recipe names identifying the emitting recipe. -/
inductive Event (L Err : Type _) where
  | begin (scope : List String)
  | log (scope : List String) (message : String)
  | declareStep (scope : List String) (step : String)
  | stepStatus (scope : List String) (step : String) (status : String)
  | succeed (scope : List String) (label : L)
  | fail (scope : List String) (error : Err)
deriving DecidableEq

/-- Everything one activation of a recipe (together with its fresh step
controller) contributes to the executor, as observed at preserve.ts lines
82-126: the event batch of `controller.begin()`, the events the recipe's
generator yields, its final label or thrown error, the event batches of
`controller.fail({error})` and `controller.succeed({label})`, and the
controller state read right after `succeed`. Recipe computations and the
controller live outside this package, so a run is parametrised by a
function producing these outcomes. -/
structure RecipeOutcome (L Err : Type _) where
  beginEvents : List (Event L Err)
  yielded : List (Event L Err)
  result : Except Err L
  failEvents : List (Event L Err)
  succeedEvents : List (Event L Err)
  stateAfter : CtlState

/-- The execution loop of `preserve` (preserve.ts lines 74-127). `act` gives
the outcome of activating a named recipe against the current labels map (the
target and the recipe's settings are folded into `act` by `preserveRun`).
Per plan entry: forward the controller's begin events and the recipe's
yielded events; on a thrown error forward the controller's fail events and
halt the run; on completion forward the controller's succeed events, halt
silently if the controller is not Done, else record the label and continue.
Returns the forwarded events and the final labels map. -/
def execLoop {L Err : Type _}
    (act : String → List (String × L) → RecipeOutcome L Err) :
    List Recipe → List (String × L) →
      List (Event L Err) × List (String × L)
  | [], labels => ([], labels)
  | r :: rest, labels =>
    let b := act r.name labels
    match b.result with
    | Except.error _ => (b.beginEvents ++ b.yielded ++ b.failEvents, labels)
    | Except.ok label =>
      if b.stateAfter = CtlState.done then
        let out := execLoop act rest (setMap labels r.name label)
        (b.beginEvents ++ b.yielded ++ b.succeedEvents ++ out.1, out.2)
      else
        (b.beginEvents ++ b.yielded ++ b.succeedEvents, labels)

/-- The `Request` interface of preserve.ts: loader name, root recipe name
and the optional settings map (absent is `none`). -/
structure Request (S : Type _) where
  loader : String
  recipe : String
  settings : Option (List (String × S))
deriving DecidableEq

/-- The settings-defaulting step at preserve.ts lines 22-24: when the
request has no `settings` field the source assigns a fresh empty `Map` to
`request.settings`, mutating the request; the returned value is the request
as observable after that step. -/
def normalizeRequest {S : Type _} (r : Request S) : Request S :=
  match r.settings with
  | none => { r with settings := some [] }
  | some _ => r

/-- `request.settings.get(k)` after normalization. -/
def getSetting {S : Type _} (settings : Option (List (String × S)))
    (k : String) : Option S :=
  lookupMap (settings.getD []) k

/-- The `Loader` interface as consumed by preserve.ts: a name and a `load`
capability that either produces a target or throws. -/
structure Loader (S T E : Type _) where
  name : String
  load : Option S → Except E T

/-- Ways a whole `preserve` run can throw to the caller (as opposed to
emitting a `fail` event): a planning/validation failure, or an error thrown
by `loader.load` (propagated uncaught, preserve.ts line 41). -/
inductive RunFailure (E : Type _) where
  | plan (f : PlanFailure)
  | loadError (e : E)
deriving DecidableEq

/-- The whole `preserve` async generator (preserve.ts lines 17-128): default
the settings, assert the loader exists, fetch loader and recipe from their
registries (a missing recipe is only detected later), load the target, plan,
then execute. The result pairs the events the generator yielded with either
the final labels map or the exception that ended the run; `none` means the
planning fuel ran out. `behavior` stands for the out-of-scope recipe
computations and controllers, invoked with the loaded target, the recipe
name, that recipe's settings, and the labels snapshot. -/
def preserveRun {S T E L Err : Type _} (req₀ : Request S)
    (loaders : List (Loader S T E)) (recipes : List Recipe)
    (behavior : T → String → Option S → List (String × L) → RecipeOutcome L Err)
    (fuel : Nat) :
    Option (List (Event L Err) × Except (RunFailure E) (List (String × L))) :=
  let req := normalizeRequest req₀
  match assertModuleExists "loader" req.loader (loaders.map Loader.name) with
  | Except.error u => some ([], Except.error (RunFailure.plan (PlanFailure.unknown u)))
  | Except.ok _ =>
    match loaders.find? (fun l => decide (l.name = req.loader)) with
    | none => some ([], Except.error (RunFailure.plan PlanFailure.typeError))
    | some loader =>
      match loader.load (getSetting req.settings req.loader) with
      | Except.error e => some ([], Except.error (RunFailure.loadError e))
      | Except.ok target =>
        match findRecipe recipes req.recipe with
        | none => some ([], Except.error (RunFailure.plan PlanFailure.typeError))
        | some recipe =>
          match planLoop recipes fuel [recipe.name] [] [] with
          | none => none
          | some (Except.error f) =>
            some ([], Except.error (RunFailure.plan f))
          | some (Except.ok plan) =>
            let out := execLoop
              (fun n labels => behavior target n (getSetting req.settings n) labels)
              plan []
            some (out.1, Except.ok out.2)

/-- A name is transitively required by `root` in registry `reg`: the root
itself, or a dependency listed by a registered recipe that is itself
required. This is the reachability notion the planner's BFS explores. -/
inductive Reaches (reg : List Recipe) (root : String) : String → Prop where
  | refl : Reaches reg root root
  | step {x : String} {r : Recipe} {d : String} :
      Reaches reg root x → findRecipe reg x = some r →
      d ∈ r.dependencies → Reaches reg root d

/-- A suffix of the plan runs to completion from a given labels map: each
entry's activation finishes with a label and leaves its controller Done, so
the executor records the label and keeps going. -/
def SucceedsAll {L Err : Type _}
    (act : String → List (String × L) → RecipeOutcome L Err) :
    List Recipe → List (String × L) → Prop
  | [], _ => True
  | r :: rest, labels =>
    ∃ l, (act r.name labels).result = Except.ok l ∧
      (act r.name labels).stateAfter = CtlState.done ∧
      SucceedsAll act rest (setMap labels r.name l)

/-- Modelled from the spec: the step controller itself lives outside `src/`
(only `Processes` interfaces are imported), so this predicate captures, per
the spec's controller contract, that when `controller.succeed({label})`
drives a controller scoped to `[name]` into the Done state, the Succeed
event carrying the label (scoped to that recipe) is the last event of the
batch `succeed` emits. -/
def GoodSucceed {L Err : Type _}
    (act : String → List (String × L) → RecipeOutcome L Err) : Prop :=
  ∀ name labels l,
    (act name labels).result = Except.ok l →
    (act name labels).stateAfter = CtlState.done →
    ((act name labels).succeedEvents).getLast? =
      some (Event.succeed [name] l)

/-- Loop invariant for the exactly-once analysis of planning: the names
already planned or still queued are distinct, the visited set and the
planned/queued names track each other (the root being the one name enqueued
without being visited), everything seen is required by the root, planned
recipes have all dependencies visited and are the registry's entry for
their name, and the root is among the planned/queued names. -/
def PlanExactInv (reg : List Recipe) (root : String)
    (q v : List String) (p : List Recipe) : Prop :=
  (namesOf p ++ q).Nodup ∧
  (∀ x ∈ v, x ∈ namesOf p ++ q) ∧
  (∀ x ∈ namesOf p ++ q, x = root ∨ x ∈ v) ∧
  (∀ x ∈ namesOf p ++ q, Reaches reg root x) ∧
  (∀ e ∈ p, ∀ d ∈ e.dependencies, d ∈ v) ∧
  (∀ e ∈ p, findRecipe reg e.name = some e) ∧
  root ∈ namesOf p ++ q

/-- Loop invariant for the root-duplication analysis of planning: the root
starts enqueued but unvisited, so the moment it enters the visited set it
must have been enqueued a second time; multiplicities of the root among
planned and queued names only grow. -/
def PlanRootDupInv (reg : List Recipe) (root : String)
    (q v : List String) (p : List Recipe) : Prop :=
  (root ∈ v → 2 ≤ (namesOf p ++ q).count root) ∧
  1 ≤ (namesOf p ++ q).count root ∧
  (∀ x ∈ v, x ∈ namesOf p ++ q) ∧
  (∀ e ∈ p, ∀ d ∈ e.dependencies, d ∈ v) ∧
  (∀ e ∈ p, findRecipe reg e.name = some e)

/-- The diamond registry of the spec: a depends on b and c, b and c both
depend on d. -/
def diamondReg : List Recipe :=
  [⟨"a", ["b", "c"]⟩, ⟨"b", ["d"]⟩, ⟨"c", ["d"]⟩, ⟨"d", []⟩]

/-- An acyclicity witness for `diamondReg`: ranks decrease along dependency
edges. -/
def diamondRank : String → Nat :=
  fun n => if n = "a" then 2 else if n = "d" then 0 else 1

/-- A registry with a duplicated entry inside one dependency list. -/
def dupReg : List Recipe := [⟨"a", ["d", "d"]⟩, ⟨"d", []⟩]

/-- The plan the planner produces for `dupReg` rooted at a. -/
def dupPlan : List Recipe := [⟨"d", []⟩, ⟨"d", []⟩, ⟨"a", ["d", "d"]⟩]

/-- A registry in which a required recipe lists the root as dependency. -/
def cycReg : List Recipe := [⟨"a", ["x"]⟩, ⟨"x", ["a"]⟩]

/-- Behaviour fixture for C4: recipe p succeeds with a Done controller,
everything else succeeds but leaves its controller active. -/
def act4 : String → List (String × Nat) → RecipeOutcome Nat Nat :=
  fun n _ =>
    if n = "p" then
      ⟨[Event.begin ["p"]], [], Except.ok 1, [],
        [Event.succeed ["p"] 1], CtlState.done⟩
    else
      ⟨[Event.begin ["q"]], [], Except.ok 2, [],
        [Event.succeed ["q"] 2], CtlState.active⟩

/-- Behaviour fixture for C5: recipe p succeeds with a Done controller,
everything else throws error 7 after its fail events. -/
def act5 : String → List (String × Nat) → RecipeOutcome Nat Nat :=
  fun n _ =>
    if n = "p" then
      ⟨[Event.begin ["p"]], [], Except.ok 1, [],
        [Event.succeed ["p"] 1], CtlState.done⟩
    else
      ⟨[Event.begin ["q"]], [], Except.error 7,
        [Event.fail ["q"] 7], [], CtlState.active⟩

/-- Behaviour fixture for C6: every recipe succeeds with label 0, a Done
controller, and a properly scoped Succeed event. -/
def act6 : String → List (String × Nat) → RecipeOutcome Nat Nat :=
  fun n _ =>
    ⟨[Event.begin [n]], [], Except.ok 0, [],
      [Event.succeed [n] 0], CtlState.done⟩

/-- A loader whose `load` throws error 7. -/
def loaderFail : Loader Nat Nat Nat := ⟨"L", fun _ => Except.error 7⟩

/-- A loader whose `load` returns target 0. -/
def loaderOk : Loader Nat Nat Nat := ⟨"L", fun _ => Except.ok 0⟩

/-- A one-recipe registry without the name C. -/
def regA : List Recipe := [⟨"A", []⟩]

/-- A registry whose only recipe lists an unregistered dependency. -/
def regMissingDep : List Recipe := [⟨"a", ["missing"]⟩]

/-- A trivial behaviour: every recipe immediately succeeds Done. -/
def behTrivial :
    Nat → String → Option Nat → List (String × Nat) → RecipeOutcome Nat Nat :=
  fun _ _ _ _ => ⟨[], [], Except.ok 0, [], [], CtlState.done⟩

/-- A request naming the absent root recipe C. -/
def reqC : Request Nat := ⟨"L", "C", some []⟩

/-- A request naming the registered root recipe a of `regMissingDep`. -/
def reqA : Request Nat := ⟨"L", "a", some []⟩

theorem findRecipe_name_eq {reg : List Recipe} {n : String} {r : Recipe}
    (h : findRecipe reg n = some r) : r.name = n := by
  have := List.find?_some h
  exact of_decide_eq_true this

theorem findRecipe_mem {reg : List Recipe} {n : String} {r : Recipe}
    (h : findRecipe reg n = some r) : r ∈ reg :=
  List.mem_of_find?_eq_some h

theorem findRecipe_name_mem {reg : List Recipe} {n : String} {r : Recipe}
    (h : findRecipe reg n = some r) : r.name ∈ namesOf reg :=
  List.mem_map_of_mem Recipe.name (findRecipe_mem h)

theorem assertModuleExists_ok {kind name : String} {keys : List String}
    (h : name ∈ keys) : assertModuleExists kind name keys = Except.ok () := by
  simp [assertModuleExists, h]

/-- Invariant-preservation principle for the planning loop: any predicate on
the (queue, visited, plan) state that is preserved by one successful
iteration holds, with some final visited set, at the empty-queue state that
produced the returned plan. -/
theorem planLoop_inv (reg : List Recipe)
    (Inv : List String → List String → List Recipe → Prop)
    (hstep : ∀ name rest v p r, findRecipe reg name = some r →
      Inv (name :: rest) v p →
      Inv (rest ++ unvisOf r v) (v ++ unvisOf r v) (r :: p)) :
    ∀ fuel q v p plan,
      planLoop reg fuel q v p = some (Except.ok plan) → Inv q v p →
      ∃ vf, Inv [] vf plan := by
  intro fuel
  induction fuel with
  | zero =>
    intro q v p plan h
    simp [planLoop] at h
  | succ n ih =>
    intro q v p plan h hInv
    cases q with
    | nil =>
      simp [planLoop] at h
      subst h
      exact ⟨v, hInv⟩
    | cons name rest =>
      rw [planLoop] at h
      cases hr : findRecipe reg name with
      | none => rw [hr] at h; simp at h
      | some r =>
        rw [hr] at h
        simp only [assertModuleExists_ok (findRecipe_name_mem hr)] at h
        exact ih _ _ _ _ h (hstep name rest v p r hr hInv)

/-- The planning loop only ever prepends to the accumulated plan. -/
theorem planLoop_append {reg : List Recipe} {fuel : Nat}
    {q v : List String} {p plan : List Recipe}
    (h : planLoop reg fuel q v p = some (Except.ok plan)) :
    ∃ pre, plan = pre ++ p := by
  have := planLoop_inv reg (fun _ _ p' => ∃ pre, p' = pre ++ p)
    (by
      rintro name rest v' p' r _ ⟨pre, rfl⟩
      exact ⟨r :: pre, rfl⟩)
    fuel q v p plan h ⟨[], rfl⟩
  obtain ⟨vf, hf⟩ := this
  exact hf

/-- When planning terminates successfully, the first dequeued name's recipe
is the last entry of the plan: the root is dequeued first, `unshift`-ed
first, and pushed further back by every later insertion. -/
theorem planLoop_root_last {reg : List Recipe} {fuel : Nat}
    {rootName : String} {plan : List Recipe}
    (h : planLoop reg fuel [rootName] [] [] = some (Except.ok plan)) :
    ∃ r, findRecipe reg rootName = some r ∧ r.name = rootName ∧
      plan.getLast? = some r := by
  cases fuel with
  | zero => simp [planLoop] at h
  | succ n =>
    rw [planLoop] at h
    cases hr : findRecipe reg rootName with
    | none => rw [hr] at h; simp at h
    | some r =>
      rw [hr] at h
      simp only [assertModuleExists_ok (findRecipe_name_mem hr)] at h
      obtain ⟨pre, rfl⟩ := planLoop_append h
      exact ⟨r, rfl, findRecipe_name_eq hr, by simp⟩

theorem lookupMap_setMap_self {A : Type _} :
    ∀ (m : List (String × A)) (k : String) (v : A),
      lookupMap (setMap m k v) k = some v := by
  intro m
  induction m with
  | nil => intro k v; simp [setMap, lookupMap]
  | cons hd tl ih =>
    intro k v
    by_cases h : hd.1 = k
    · simp [setMap, h, lookupMap]
    · simpa [setMap, h, lookupMap, Ne.symm h] using ih k v

theorem lookupMap_setMap_ne {A : Type _} {n k : String} (h : n ≠ k) :
    ∀ (m : List (String × A)) (v : A),
      lookupMap (setMap m k v) n = lookupMap m n := by
  intro m
  induction m with
  | nil => intro v; simp [setMap, lookupMap, h]
  | cons hd tl ih =>
    intro v
    by_cases hk : hd.1 = k
    · simp [setMap, hk, lookupMap, h]
    · simp [setMap, hk, lookupMap, ih]

theorem keysOf_setMap {A : Type _} :
    ∀ (m : List (String × A)) (k : String) (v : A) (n : String),
      n ∈ keysOf (setMap m k v) ↔ n ∈ keysOf m ∨ n = k := by
  intro m
  induction m with
  | nil => intro k v n; simp [setMap, keysOf]
  | cons hd tl ih =>
    intro k v n
    by_cases hk : hd.1 = k
    · subst hk
      simp only [setMap, eq_self_iff_true, if_true, keysOf, List.map_cons, List.mem_cons]
      tauto
    · simp only [setMap, if_neg hk, keysOf, List.map_cons, List.mem_cons]
      have := ih k v n
      simp only [keysOf] at this
      rw [this]
      tauto

theorem keysOf_setMap_nodup {A : Type _} :
    ∀ (m : List (String × A)) (k : String) (v : A),
      (keysOf m).Nodup → (keysOf (setMap m k v)).Nodup := by
  intro m
  induction m with
  | nil => intro k v _; simp [setMap, keysOf]
  | cons hd tl ih =>
    intro k v hnd
    simp only [keysOf, List.map_cons, List.nodup_cons] at hnd
    by_cases hk : hd.1 = k
    · subst hk
      simp only [setMap, eq_self_iff_true, if_true, keysOf, List.map_cons, List.nodup_cons]
      exact hnd
    · simp only [setMap, if_neg hk, keysOf, List.map_cons, List.nodup_cons]
      refine ⟨?_, ih k v hnd.2⟩
      intro hmem
      have := (keysOf_setMap tl k v hd.1).1 hmem
      rcases this with h1 | h1
      · exact hnd.1 h1
      · exact hk h1

theorem execLoop_cons_error {L Err : Type _}
    {act : String → List (String × L) → RecipeOutcome L Err}
    {r : Recipe} {rest : List Recipe} {labels : List (String × L)} {e : Err}
    (h : (act r.name labels).result = Except.error e) :
    execLoop act (r :: rest) labels =
      ((act r.name labels).beginEvents ++ (act r.name labels).yielded ++
        (act r.name labels).failEvents, labels) := by
  simp [execLoop, h]

theorem execLoop_cons_ok_done {L Err : Type _}
    {act : String → List (String × L) → RecipeOutcome L Err}
    {r : Recipe} {rest : List Recipe} {labels : List (String × L)} {l : L}
    (h : (act r.name labels).result = Except.ok l)
    (hd : (act r.name labels).stateAfter = CtlState.done) :
    execLoop act (r :: rest) labels =
      ((act r.name labels).beginEvents ++ (act r.name labels).yielded ++
        (act r.name labels).succeedEvents ++
        (execLoop act rest (setMap labels r.name l)).1,
       (execLoop act rest (setMap labels r.name l)).2) := by
  simp [execLoop, h, hd]

theorem execLoop_cons_ok_halt {L Err : Type _}
    {act : String → List (String × L) → RecipeOutcome L Err}
    {r : Recipe} {rest : List Recipe} {labels : List (String × L)} {l : L}
    (h : (act r.name labels).result = Except.ok l)
    (hd : (act r.name labels).stateAfter ≠ CtlState.done) :
    execLoop act (r :: rest) labels =
      ((act r.name labels).beginEvents ++ (act r.name labels).yielded ++
        (act r.name labels).succeedEvents, labels) := by
  simp [execLoop, h, hd]

/-- When an initial segment of the plan runs to completion, the executor on
the whole plan is the executor on that segment followed by the executor on
the remainder started from the segment's final labels. -/
theorem execLoop_append_ok {L Err : Type _}
    {act : String → List (String × L) → RecipeOutcome L Err} :
    ∀ (p₁ rest : List Recipe) (labels : List (String × L)),
      SucceedsAll act p₁ labels →
      execLoop act (p₁ ++ rest) labels =
        ((execLoop act p₁ labels).1 ++
          (execLoop act rest (execLoop act p₁ labels).2).1,
         (execLoop act rest (execLoop act p₁ labels).2).2) := by
  intro p₁
  induction p₁ with
  | nil => intro rest labels _; simp [execLoop]
  | cons r tl ih =>
    intro rest labels hs
    obtain ⟨l, hok, hdone, htl⟩ := hs
    rw [List.cons_append, execLoop_cons_ok_done hok hdone,
      execLoop_cons_ok_done hok hdone, ih rest _ htl]
    simp [List.append_assoc]

/-- The executor never writes a label whose key is not the name of a plan
entry. -/
theorem execLoop_lookup_not_mem {L Err : Type _}
    {act : String → List (String × L) → RecipeOutcome L Err} :
    ∀ (p : List Recipe) (labels : List (String × L)) (n : String),
      n ∉ namesOf p →
      lookupMap (execLoop act p labels).2 n = lookupMap labels n := by
  intro p
  induction p with
  | nil => intro labels n _; simp [execLoop]
  | cons r tl ih =>
    intro labels n hn
    have hne : n ≠ r.name := by
      intro h; exact hn (by simp [namesOf, h])
    have hn' : n ∉ namesOf tl := by
      intro h; exact hn (by simp [namesOf] at h ⊢; exact Or.inr h)
    cases hres : (act r.name labels).result with
    | error e => rw [execLoop_cons_error hres]
    | ok l =>
      by_cases hd : (act r.name labels).stateAfter = CtlState.done
      · rw [execLoop_cons_ok_done hres hd]
        rw [ih _ n hn', lookupMap_setMap_ne hne]
      · rw [execLoop_cons_ok_halt hres hd]

/-- On a fully successful suffix, the final labels keys are the starting
keys plus the names of the executed entries. -/
theorem execLoop_keys_ok {L Err : Type _}
    {act : String → List (String × L) → RecipeOutcome L Err} :
    ∀ (p : List Recipe) (labels : List (String × L)),
      SucceedsAll act p labels →
      ∀ n, n ∈ keysOf (execLoop act p labels).2 ↔
        n ∈ keysOf labels ∨ n ∈ namesOf p := by
  intro p
  induction p with
  | nil => intro labels _ n; simp [execLoop, namesOf]
  | cons r tl ih =>
    intro labels hs n
    obtain ⟨l, hok, hdone, htl⟩ := hs
    rw [execLoop_cons_ok_done hok hdone]
    rw [ih _ htl n, keysOf_setMap]
    simp [namesOf]
    tauto

/-- On a fully successful suffix, distinctness of the labels keys is
preserved. -/
theorem execLoop_keys_nodup {L Err : Type _}
    {act : String → List (String × L) → RecipeOutcome L Err} :
    ∀ (p : List Recipe) (labels : List (String × L)),
      SucceedsAll act p labels → (keysOf labels).Nodup →
      (keysOf (execLoop act p labels).2).Nodup := by
  intro p
  induction p with
  | nil => intro labels _ h; simpa [execLoop] using h
  | cons r tl ih =>
    intro labels hs hnd
    obtain ⟨l, hok, hdone, htl⟩ := hs
    rw [execLoop_cons_ok_done hok hdone]
    exact ih _ htl (keysOf_setMap_nodup _ _ _ hnd)

/-- On a fully successful plan, the last forwarded event is the Succeed
event of the last plan entry. -/
theorem execLoop_last_event {L Err : Type _}
    {act : String → List (String × L) → RecipeOutcome L Err}
    (hg : GoodSucceed act) :
    ∀ (p : List Recipe) (labels : List (String × L)) (r : Recipe),
      SucceedsAll act p labels → p.getLast? = some r →
      ∃ l, ((execLoop act p labels).1).getLast? =
        some (Event.succeed [r.name] l) := by
  intro p
  induction p with
  | nil => intro labels r _ hlast; simp at hlast
  | cons hd tl ih =>
    intro labels r hs hlast
    obtain ⟨l, hok, hdone, htl⟩ := hs
    cases tl with
    | nil =>
      have hr : hd = r := by simpa using hlast
      subst hr
      rw [execLoop_cons_ok_done hok hdone]
      have hsl := hg hd.name labels l hok hdone
      have hne : (act hd.name labels).succeedEvents ≠ [] := by
        intro h0; rw [h0] at hsl; simp at hsl
      refine ⟨l, ?_⟩
      simp only [execLoop, List.append_nil]
      rw [List.append_assoc, List.getLast?_append_of_ne_nil _ (by
        intro h0
        exact hne (List.append_eq_nil.1 h0).2)]
      rw [List.getLast?_append_of_ne_nil _ hne]
      exact hsl
    | cons t2 ts =>
      rw [List.getLast?_cons_cons] at hlast
      obtain ⟨l2, hlast2⟩ := ih (setMap labels hd.name l) r htl hlast
      rw [execLoop_cons_ok_done hok hdone]
      refine ⟨l2, ?_⟩
      have hne : (execLoop act (t2 :: ts) (setMap labels hd.name l)).1 ≠ [] := by
        intro h0; rw [h0] at hlast2; simp at hlast2
      rw [List.getLast?_append_of_ne_nil _ hne]
      exact hlast2

theorem mem_unvisOf {r : Recipe} {v : List String} {d : String} :
    d ∈ unvisOf r v ↔ d ∈ r.dependencies ∧ d ∉ v := by
  simp [unvisOf]

/-- Helper permutation for one planning step: the new plan-names-and-queue
multiset is the old one plus the freshly enqueued batch. -/
theorem step_list_perm (name : String) (np rest unv : List String) :
    List.Perm ((name :: np) ++ (rest ++ unv)) ((np ++ name :: rest) ++ unv) := by
  have h1 : (name :: np) ++ (rest ++ unv) = (name :: (np ++ rest)) ++ unv := by
    simp
  rw [h1]
  exact (List.perm_middle.symm).append_right unv

/-- Under an acyclicity witness (a rank strictly decreasing along dependency
edges out of required recipes), everything required by the root ranks at or
below the root. -/
theorem reaches_rank_le {reg : List Recipe} {root : String}
    (rank : String → Nat)
    (hrank : ∀ x r d, Reaches reg root x → findRecipe reg x = some r →
      d ∈ r.dependencies → rank d < rank x) :
    ∀ {x : String}, Reaches reg root x → rank x ≤ rank root := by
  intro x h
  induction h with
  | refl => exact le_refl _
  | step hx hf hd ih => exact le_of_lt (lt_of_lt_of_le (hrank _ _ _ hx hf hd) ih)

/-- A name list containing the root and closed under registered dependency
edges contains everything the root requires. -/
theorem reaches_mem_of_closed {reg : List Recipe} {root : String}
    {names : List String} (hroot : root ∈ names)
    (hfind : ∀ x ∈ names, ∃ e, findRecipe reg x = some e ∧
      ∀ d ∈ e.dependencies, d ∈ names) :
    ∀ {y : String}, Reaches reg root y → y ∈ names := by
  intro y h
  induction h with
  | refl => exact hroot
  | @step x r d hx hf hd ih =>
    obtain ⟨e, hfe, hcl⟩ := hfind _ ih
    rw [hf] at hfe
    cases hfe
    exact hcl _ hd

/-- For a registry whose dependency lists are duplicate-free and acyclic
along everything the root requires (witnessed by a rank function), a
successful planning run lists exactly the transitively required recipes,
each exactly once. -/
theorem planLoop_exactly_once {reg : List Recipe} {root : String}
    {fuel : Nat} {plan : List Recipe} (rank : String → Nat)
    (hnd : ∀ r ∈ reg, r.dependencies.Nodup)
    (hrank : ∀ x r d, Reaches reg root x → findRecipe reg x = some r →
      d ∈ r.dependencies → rank d < rank x)
    (h : planLoop reg fuel [root] [] [] = some (Except.ok plan)) :
    (namesOf plan).Nodup ∧ ∀ n, n ∈ namesOf plan ↔ Reaches reg root n := by
  have key := planLoop_inv reg (PlanExactInv reg root)
    (by
      intro name rest v p r hf hInv
      obtain ⟨h1, h2, h3, h4, h5, h6, h7⟩ := hInv
      have hname : r.name = name := findRecipe_name_eq hf
      have hnames : namesOf (r :: p) = name :: namesOf p := by
        simp [namesOf, hname]
      have hperm : List.Perm (namesOf (r :: p) ++ (rest ++ unvisOf r v))
          ((namesOf p ++ name :: rest) ++ unvisOf r v) := by
        rw [hnames]
        exact step_list_perm name (namesOf p) rest (unvisOf r v)
      have hreach_name : Reaches reg root name := h4 name (by simp)
      have hnotL : ∀ d ∈ unvisOf r v, d ∉ namesOf p ++ name :: rest := by
        intro d hd hmem
        obtain ⟨hdep, hnv⟩ := mem_unvisOf.1 hd
        rcases h3 d hmem with rfl | hv
        · have hlt : rank d < rank name := hrank _ _ _ hreach_name hf hdep
          have hle : rank name ≤ rank d := reaches_rank_le rank hrank hreach_name
          omega
        · exact hnv hv
      refine ⟨?_, ?_, ?_, ?_, ?_, ?_, ?_⟩
      · refine hperm.nodup_iff.2 (List.nodup_append.2 ⟨h1, ?_, ?_⟩)
        · exact (hnd r (findRecipe_mem hf)).filter _
        · intro a ha hain
          exact hnotL a hain ha
      · intro x hx
        refine hperm.mem_iff.2 ?_
        rcases List.mem_append.1 hx with hv | hu
        · exact List.mem_append_left _ (h2 x hv)
        · exact List.mem_append_right _ hu
      · intro x hx
        rcases List.mem_append.1 (hperm.mem_iff.1 hx) with hL | hu
        · rcases h3 x hL with hr | hv
          · exact Or.inl hr
          · exact Or.inr (List.mem_append_left _ hv)
        · exact Or.inr (List.mem_append_right _ hu)
      · intro x hx
        rcases List.mem_append.1 (hperm.mem_iff.1 hx) with hL | hu
        · exact h4 x hL
        · exact Reaches.step hreach_name hf (mem_unvisOf.1 hu).1
      · intro e he d hd
        rcases List.mem_cons.1 he with rfl | hp
        · by_cases hv : d ∈ v
          · exact List.mem_append_left _ hv
          · exact List.mem_append_right _ (mem_unvisOf.2 ⟨hd, hv⟩)
        · exact List.mem_append_left _ (h5 e hp d hd)
      · intro e he
        rcases List.mem_cons.1 he with rfl | hp
        · rw [hname]; exact hf
        · exact h6 e hp
      · exact hperm.mem_iff.2 (List.mem_append_left _ h7))
    fuel [root] [] [] plan h
    (by
      refine ⟨?_, ?_, ?_, ?_, ?_, ?_, ?_⟩ <;>
        simp [namesOf, Reaches.refl])
  obtain ⟨vf, hf1, hf2, hf3, hf4, hf5, hf6, hf7⟩ := key
  simp only [List.append_nil] at hf1 hf2 hf3 hf4 hf7
  refine ⟨hf1, ?_⟩
  intro n
  constructor
  · exact hf4 n
  · intro hreach
    refine reaches_mem_of_closed hf7 ?_ hreach
    intro x hx
    obtain ⟨e, he, hex⟩ := List.mem_map.1 hx
    refine ⟨e, ?_, ?_⟩
    · rw [← hex]; exact hf6 e he
    · intro d hd
      exact hf2 d (hf5 e he d hd)

/-- Because the planner never pre-loads the root into the visited set, a
registered recipe required by the root that lists the root as a dependency
makes the root name be enqueued a second time: in any successful planning
run over such a registry the root occurs at least twice in the plan. -/
theorem planLoop_root_requeued {reg : List Recipe} {root : String}
    {fuel : Nat} {plan : List Recipe} {x : String} {rx : Recipe}
    (h : planLoop reg fuel [root] [] [] = some (Except.ok plan))
    (hx : Reaches reg root x)
    (hrx : findRecipe reg x = some rx)
    (hdep : root ∈ rx.dependencies) :
    2 ≤ (namesOf plan).count root := by
  have key := planLoop_inv reg (PlanRootDupInv reg root)
    (by
      intro name rest v p r hf hInv
      obtain ⟨h1, h2, h3, h4, h5⟩ := hInv
      have hname : r.name = name := findRecipe_name_eq hf
      have hnames : namesOf (r :: p) = name :: namesOf p := by
        simp [namesOf, hname]
      have hperm : List.Perm (namesOf (r :: p) ++ (rest ++ unvisOf r v))
          ((namesOf p ++ name :: rest) ++ unvisOf r v) := by
        rw [hnames]
        exact step_list_perm name (namesOf p) rest (unvisOf r v)
      have hcnt : (namesOf (r :: p) ++ (rest ++ unvisOf r v)).count root =
          (namesOf p ++ name :: rest).count root +
            (unvisOf r v).count root := by
        rw [hperm.count_eq root]
        exact List.count_append root _ _
      refine ⟨?_, ?_, ?_, ?_, ?_⟩
      · intro hrv
        rcases List.mem_append.1 hrv with hv | hu
        · have := h1 hv
          omega
        · have hp : 0 < (unvisOf r v).count root := List.count_pos_iff.2 hu
          omega
      · omega
      · intro y hy
        refine hperm.mem_iff.2 ?_
        rcases List.mem_append.1 hy with hv | hu
        · exact List.mem_append_left _ (h3 y hv)
        · exact List.mem_append_right _ hu
      · intro e he d hd
        rcases List.mem_cons.1 he with rfl | hp
        · by_cases hv : d ∈ v
          · exact List.mem_append_left _ hv
          · exact List.mem_append_right _ (mem_unvisOf.2 ⟨hd, hv⟩)
        · exact List.mem_append_left _ (h4 e hp d hd)
      · intro e he
        rcases List.mem_cons.1 he with rfl | hp
        · rw [hname]; exact hf
        · exact h5 e hp)
    fuel [root] [] [] plan h
    (by
      refine ⟨?_, ?_, ?_, ?_, ?_⟩ <;> simp [namesOf])
  obtain ⟨vf, k1, k2, k3, k4, k5⟩ := key
  simp only [List.append_nil] at k1 k2 k3
  have hrootmem : root ∈ namesOf plan := List.count_pos_iff.1 (by omega)
  have hxmem : x ∈ namesOf plan := by
    refine reaches_mem_of_closed hrootmem ?_ hx
    intro y hy
    obtain ⟨e, he, hey⟩ := List.mem_map.1 hy
    refine ⟨e, ?_, ?_⟩
    · rw [← hey]; exact k5 e he
    · intro d hd
      exact k3 d (k4 e he d hd)
  obtain ⟨e, he, hex⟩ := List.mem_map.1 hxmem
  have hfe : findRecipe reg x = some e := by rw [← hex]; exact k5 e he
  rw [hrx] at hfe
  have hre : rx = e := by injection hfe
  subst hre
  exact k1 (k4 rx he root hdep)

/-- C7: for every recipe graph on which planning terminates, the root
recipe is the last entry of the plan; and for the diamond graph (a depends
on b and c; b and c both depend on d, with root a) the plan is [d, c, b, a],
so d precedes b and c, and b and c precede a. -/
theorem claim7_root_last_and_diamond :
    (∀ (reg : List Recipe) (fuel : Nat) (rootName : String)
      (plan : List Recipe),
      planLoop reg fuel [rootName] [] [] = some (Except.ok plan) →
      ∃ r, findRecipe reg rootName = some r ∧ r.name = rootName ∧
        plan.getLast? = some r) ∧
    planLoop diamondReg 10 ["a"] [] [] =
      some (Except.ok
        [⟨"d", []⟩, ⟨"c", ["d"]⟩, ⟨"b", ["d"]⟩, ⟨"a", ["b", "c"]⟩]) :=
  ⟨fun _ _ _ _ h => planLoop_root_last h, rfl⟩

/-- Witness for C7 at the diamond graph: the plan ends in the root recipe. -/
theorem claim7_witness :
    ∃ r, findRecipe diamondReg "a" = some r ∧ r.name = "a" ∧
      ([⟨"d", []⟩, ⟨"c", ["d"]⟩, ⟨"b", ["d"]⟩,
        ⟨"a", ["b", "c"]⟩] : List Recipe).getLast? = some r :=
  claim7_root_last_and_diamond.1 diamondReg 10 "a"
    [⟨"d", []⟩, ⟨"c", ["d"]⟩, ⟨"b", ["d"]⟩, ⟨"a", ["b", "c"]⟩] rfl

/-- C3 counterexample: the registry {a ↦ [d, d]; d ↦ []} is acyclic, all
reachable names are registered, yet planning rooted at a produces a plan in
which recipe d appears twice, because the unvisited batch is filtered
against the visited set before any of its own members is added to it. -/
theorem claim3_counterexample :
    planLoop dupReg 10 ["a"] [] [] = some (Except.ok dupPlan) ∧
    (namesOf dupPlan).count "d" = 2 := ⟨rfl, rfl⟩

/-- C3 (amended): for every recipe graph that is acyclic along everything
the root requires (witnessed by a rank decreasing across dependency edges),
whose reachable names are all registered, and additionally whose dependency
lists are each duplicate-free, a terminating planning run contains the root
and every transitively required recipe exactly once each. -/
theorem claim3_amended {reg : List Recipe} {root : String} {fuel : Nat}
    {plan : List Recipe} (rank : String → Nat)
    (hnd : ∀ r ∈ reg, r.dependencies.Nodup)
    (hrank : ∀ x r d, Reaches reg root x → findRecipe reg x = some r →
      d ∈ r.dependencies → rank d < rank x)
    (h : planLoop reg fuel [root] [] [] = some (Except.ok plan)) :
    (namesOf plan).Nodup ∧ ∀ n, n ∈ namesOf plan ↔ Reaches reg root n :=
  planLoop_exactly_once rank hnd hrank h

/-- Witness for the amended C3 at the diamond graph. -/
theorem claim3_amended_witness :
    (namesOf [(⟨"d", []⟩ : Recipe), ⟨"c", ["d"]⟩, ⟨"b", ["d"]⟩,
      ⟨"a", ["b", "c"]⟩]).Nodup ∧
    ("d" ∈ namesOf [(⟨"d", []⟩ : Recipe), ⟨"c", ["d"]⟩, ⟨"b", ["d"]⟩,
      ⟨"a", ["b", "c"]⟩] ↔ Reaches diamondReg "a" "d") := by
  have h := @claim3_amended diamondReg "a" 10
    [⟨"d", []⟩, ⟨"c", ["d"]⟩, ⟨"b", ["d"]⟩, ⟨"a", ["b", "c"]⟩]
    diamondRank ?hnd ?hrank rfl
  · exact ⟨h.1, h.2 "d"⟩
  case hnd => decide
  case hrank =>
    intro x r d hreach hf hd
    have hx : r.name = x := findRecipe_name_eq hf
    have hm : r ∈ diamondReg := findRecipe_mem hf
    subst hx
    fin_cases hm
    · obtain rfl | rfl : d = "b" ∨ d = "c" := by simpa using hd
      · decide
      · decide
    · obtain rfl : d = "d" := by simpa using hd
      decide
    · obtain rfl : d = "d" := by simpa using hd
      decide
    · simp at hd

/-- C9: the planner initializes the visited set empty, without the root, so
whenever a registered recipe required by the root lists the root itself as
a dependency, the root name is enqueued a second time and the root recipe
appears at least twice in any terminating plan (and hence executes more
than once). -/
theorem claim9_root_duplicated {reg : List Recipe} {root : String}
    {fuel : Nat} {plan : List Recipe} {x : String} {rx : Recipe}
    (h : planLoop reg fuel [root] [] [] = some (Except.ok plan))
    (hx : Reaches reg root x) (hrx : findRecipe reg x = some rx)
    (hdep : root ∈ rx.dependencies) :
    2 ≤ (namesOf plan).count root :=
  planLoop_root_requeued h hx hrx hdep

/-- Witness for C9 at the two-recipe cycle a ↦ [x], x ↦ [a]: the plan is
[a, x, a], listing the root twice. -/
theorem claim9_witness :
    2 ≤ (namesOf [(⟨"a", ["x"]⟩ : Recipe), ⟨"x", ["a"]⟩,
      ⟨"a", ["x"]⟩]).count "a" :=
  @claim9_root_duplicated cycReg "a" 10
    [⟨"a", ["x"]⟩, ⟨"x", ["a"]⟩, ⟨"a", ["x"]⟩] "x" ⟨"x", ["a"]⟩ rfl
    (Reaches.step Reaches.refl (show findRecipe cycReg "a" =
      some ⟨"a", ["x"]⟩ from rfl) (by decide))
    rfl (by decide)

/-- C4: whenever an initial segment of the plan runs to completion and the
next entry's computation completes with a label but its controller is not
Done after the succeed events, the run halts right there: the output stream
is the segment's events followed only by that entry's begin, yielded and
succeed events (nothing beyond what the controller produced), the labels
map stays the segment's, and in particular no label is recorded for the
halting entry nor for any later plan entry. -/
theorem claim4_halt_on_not_done {L Err : Type _}
    {act : String → List (String × L) → RecipeOutcome L Err}
    {p₁ : List Recipe} {rk : Recipe} {p₂ : List Recipe} {l : L}
    (h1 : SucceedsAll act p₁ [])
    (h2 : (act rk.name (execLoop act p₁ []).2).result = Except.ok l)
    (h3 : (act rk.name (execLoop act p₁ []).2).stateAfter ≠ CtlState.done) :
    execLoop act (p₁ ++ rk :: p₂) [] =
      ((execLoop act p₁ []).1 ++
        ((act rk.name (execLoop act p₁ []).2).beginEvents ++
          (act rk.name (execLoop act p₁ []).2).yielded ++
          (act rk.name (execLoop act p₁ []).2).succeedEvents),
       (execLoop act p₁ []).2) ∧
    ∀ n, n ∉ namesOf p₁ → lookupMap (execLoop act p₁ []).2 n = none := by
  constructor
  · rw [execLoop_append_ok p₁ (rk :: p₂) [] h1,
      execLoop_cons_ok_halt h2 h3]
  · intro n hn
    rw [execLoop_lookup_not_mem p₁ [] n hn]
    rfl

/-- Witness for C4: with plan [p, q, z] where q's controller stays active,
the run stops after q's succeed events with only p's label recorded. -/
theorem claim4_witness :
    execLoop act4 ([⟨"p", []⟩] ++ (⟨"q", []⟩ : Recipe) :: [⟨"z", []⟩]) [] =
      ((execLoop act4 [⟨"p", []⟩] []).1 ++
        ((act4 "q" (execLoop act4 [⟨"p", []⟩] []).2).beginEvents ++
          (act4 "q" (execLoop act4 [⟨"p", []⟩] []).2).yielded ++
          (act4 "q" (execLoop act4 [⟨"p", []⟩] []).2).succeedEvents),
       (execLoop act4 [⟨"p", []⟩] []).2) :=
  (@claim4_halt_on_not_done Nat Nat act4 [⟨"p", []⟩] ⟨"q", []⟩
    [⟨"z", []⟩] 2 ⟨1, rfl, rfl, trivial⟩ rfl (by decide)).1

/-- C5: whenever an initial segment of the plan runs to completion and the
next entry's computation raises an error, the run emits that entry's begin,
yielded and controller fail events and halts: no later plan entry
contributes anything, the labels map stays the segment's, and no label is
recorded for the failing entry or anything after it. -/
theorem claim5_halt_on_error {L Err : Type _}
    {act : String → List (String × L) → RecipeOutcome L Err}
    {p₁ : List Recipe} {rk : Recipe} {p₂ : List Recipe} {e : Err}
    (h1 : SucceedsAll act p₁ [])
    (h2 : (act rk.name (execLoop act p₁ []).2).result = Except.error e) :
    execLoop act (p₁ ++ rk :: p₂) [] =
      ((execLoop act p₁ []).1 ++
        ((act rk.name (execLoop act p₁ []).2).beginEvents ++
          (act rk.name (execLoop act p₁ []).2).yielded ++
          (act rk.name (execLoop act p₁ []).2).failEvents),
       (execLoop act p₁ []).2) ∧
    ∀ n, n ∉ namesOf p₁ → lookupMap (execLoop act p₁ []).2 n = none := by
  constructor
  · rw [execLoop_append_ok p₁ (rk :: p₂) [] h1, execLoop_cons_error h2]
  · intro n hn
    rw [execLoop_lookup_not_mem p₁ [] n hn]
    rfl

/-- Witness for C5: with plan [p, q, z] where q throws, the run ends at q's
fail events with only p's label recorded. -/
theorem claim5_witness :
    execLoop act5 ([⟨"p", []⟩] ++ (⟨"q", []⟩ : Recipe) :: [⟨"z", []⟩]) [] =
      ((execLoop act5 [⟨"p", []⟩] []).1 ++
        ((act5 "q" (execLoop act5 [⟨"p", []⟩] []).2).beginEvents ++
          (act5 "q" (execLoop act5 [⟨"p", []⟩] []).2).yielded ++
          (act5 "q" (execLoop act5 [⟨"p", []⟩] []).2).failEvents),
       (execLoop act5 [⟨"p", []⟩] []).2) :=
  (@claim5_halt_on_error Nat Nat act5 [⟨"p", []⟩] ⟨"q", []⟩
    [⟨"z", []⟩] 7 ⟨1, rfl, rfl, trivial⟩ rfl).1

/-- C6: on a run whose plan comes from a terminating planning call and in
which every plan entry completes with its controller Done, the final labels
map has duplicate-free keys that are exactly the plan entries' names, and
(under the controller contract that a Done-confirmed succeed ends in the
scoped Succeed event) the final event of the output stream is a Succeed
event scoped to the root recipe. -/
theorem claim6_success_run {L Err : Type _} {reg : List Recipe}
    {root : String} {fuel : Nat} {plan : List Recipe}
    {act : String → List (String × L) → RecipeOutcome L Err}
    (hplan : planLoop reg fuel [root] [] [] = some (Except.ok plan))
    (hall : SucceedsAll act plan [])
    (hg : GoodSucceed act) :
    ((keysOf (execLoop act plan []).2).Nodup ∧
      ∀ n, n ∈ keysOf (execLoop act plan []).2 ↔ n ∈ namesOf plan) ∧
    ∃ l, ((execLoop act plan []).1).getLast? =
      some (Event.succeed [root] l) := by
  obtain ⟨r, hfr, hrname, hlast⟩ := planLoop_root_last hplan
  refine ⟨⟨?_, ?_⟩, ?_⟩
  · exact execLoop_keys_nodup plan [] hall (by simp [keysOf])
  · intro n
    rw [execLoop_keys_ok plan [] hall n]
    simp [keysOf]
  · obtain ⟨l, hl⟩ := execLoop_last_event hg plan [] r hall hlast
    exact ⟨l, by rw [hl, hrname]⟩

theorem act6_good : GoodSucceed act6 := by
  intro name labels l h _
  have hl : (0 : Nat) = l := by
    simpa [act6] using h
  subst hl
  rfl

/-- Witness for C6 on the one-recipe registry {a ↦ []}. -/
theorem claim6_witness :
    ((keysOf (execLoop act6 [(⟨"a", []⟩ : Recipe)] []).2).Nodup ∧
      ("a" ∈ keysOf (execLoop act6 [(⟨"a", []⟩ : Recipe)] []).2 ↔
        "a" ∈ namesOf [(⟨"a", []⟩ : Recipe)])) ∧
    ∃ l, ((execLoop act6 [(⟨"a", []⟩ : Recipe)] []).1).getLast? =
      some (Event.succeed ["a"] l) := by
  have h := @claim6_success_run Nat Nat [⟨"a", []⟩] "a" 2 [⟨"a", []⟩]
    act6 rfl ⟨0, rfl, rfl, trivial⟩ act6_good
  exact ⟨⟨h.1.1, h.1.2 "a"⟩, h.2⟩

/-- C1 counterexample: with root recipe C absent from the registry, the run
still reaches `loader.load` (a throwing loader's error is what surfaces,
first conjunct), and with a successful loader the run ends in the planner's
TypeError rather than a configuration failure naming C (second conjunct);
zero events are emitted either way. -/
theorem claim1_counterexample :
    preserveRun reqC [loaderFail] regA behTrivial 10 =
      some ([], Except.error (RunFailure.loadError 7)) ∧
    preserveRun reqC [loaderOk] regA behTrivial 10 =
      some ([], Except.error (RunFailure.plan PlanFailure.typeError)) :=
  ⟨rfl, rfl⟩

/-- C1 (amended): if the requested root recipe name is absent from the
recipe registry while the loader exists and its load succeeds, the run
fails with zero events emitted, but only after `loader.load` was invoked,
and with a TypeError (reading `.name` of `undefined`) rather than a
configuration failure naming the missing identifier. -/
theorem claim1_amended {S T E L Err : Type _} (req : Request S)
    (loaders : List (Loader S T E)) (recipes : List Recipe)
    (behavior : T → String → Option S → List (String × L) →
      RecipeOutcome L Err)
    (fuel : Nat) (loader : Loader S T E) (target : T)
    (hmem : (normalizeRequest req).loader ∈ loaders.map Loader.name)
    (hfind : loaders.find?
      (fun l => decide (l.name = (normalizeRequest req).loader)) = some loader)
    (hload : loader.load (getSetting (normalizeRequest req).settings
      (normalizeRequest req).loader) = Except.ok target)
    (hmiss : findRecipe recipes (normalizeRequest req).recipe = none) :
    preserveRun req loaders recipes behavior fuel =
      some ([], Except.error (RunFailure.plan PlanFailure.typeError)) := by
  simp only [preserveRun, assertModuleExists_ok hmem, hfind, hload, hmiss]

/-- Witness for the amended C1. -/
theorem claim1_amended_witness :
    preserveRun reqC [loaderOk] regA behTrivial 10 =
      some ([], Except.error (RunFailure.plan PlanFailure.typeError)) :=
  claim1_amended reqC [loaderOk] regA behTrivial 10 loaderOk 0
    (by decide) rfl rfl rfl

/-- C2 (code bug): when the dependency name "missing", discovered during
planning, is absent from the registry, the run fails before any recipe
executes and with zero events emitted, but with the TypeError of reading
`.name` on the `undefined` returned by `recipes.get` — the
`assertRecipeExists` guard sits after that read and on the already-fetched
recipe's own name, so it can never raise the UnknownModule failure the
claim (and the guard itself) intends. -/
theorem claim2_code_bug :
    planLoop regMissingDep 10 ["a"] [] [] =
      some (Except.error PlanFailure.typeError) ∧
    preserveRun reqA [loaderOk] regMissingDep behTrivial 10 =
      some ([], Except.error (RunFailure.plan PlanFailure.typeError)) :=
  ⟨rfl, rfl⟩

/-- C8 counterexample: a request arriving without settings is mutated by
the settings-defaulting step (preserve.ts lines 22-24): afterwards its
settings field is the empty mapping, not the original absent value. -/
theorem claim8_counterexample :
    normalizeRequest (⟨"l", "r", none⟩ : Request Nat) =
      ⟨"l", "r", some []⟩ ∧
    (⟨"l", "r", none⟩ : Request Nat).settings = none :=
  ⟨rfl, rfl⟩

/-- C8 (amended): the settings-defaulting step is the only mutation of the
request: a request whose settings are present is returned unchanged, and a
request without settings is returned with exactly an empty settings mapping
installed and its other fields untouched. -/
theorem claim8_amended {S : Type _} (r : Request S) :
    (∀ s, r.settings = some s → normalizeRequest r = r) ∧
    (r.settings = none →
      normalizeRequest r = { r with settings := some [] }) := by
  constructor
  · intro s hs
    simp [normalizeRequest, hs]
  · intro hs
    simp [normalizeRequest, hs]

/-- Witness for the amended C8: a request with settings present is
unchanged. -/
theorem claim8_amended_witness :
    normalizeRequest (⟨"l", "r", some [("k", 5)]⟩ : Request Nat) =
      ⟨"l", "r", some [("k", 5)]⟩ :=
  (claim8_amended (⟨"l", "r", some [("k", 5)]⟩ : Request Nat)).1 _ rfl

/-- C10: when the loader's `load` throws, the error propagates to the
caller as the run's exception — zero events are emitted, the error is not
converted into a Fail event, and no recipe executes. -/
theorem claim10_load_error_propagates {S T E L Err : Type _}
    (req : Request S) (loaders : List (Loader S T E))
    (recipes : List Recipe)
    (behavior : T → String → Option S → List (String × L) →
      RecipeOutcome L Err)
    (fuel : Nat) (loader : Loader S T E) (e : E)
    (hmem : (normalizeRequest req).loader ∈ loaders.map Loader.name)
    (hfind : loaders.find?
      (fun l => decide (l.name = (normalizeRequest req).loader)) = some loader)
    (hload : loader.load (getSetting (normalizeRequest req).settings
      (normalizeRequest req).loader) = Except.error e) :
    preserveRun req loaders recipes behavior fuel =
      some ([], Except.error (RunFailure.loadError e)) := by
  simp only [preserveRun, assertModuleExists_ok hmem, hfind, hload]

/-- Witness for C10: a throwing loader ends the run exceptionally with no
events even though the requested recipe is registered. -/
theorem claim10_witness :
    preserveRun (⟨"L", "A", some []⟩ : Request Nat) [loaderFail] regA
      behTrivial 10 =
      some ([], Except.error (RunFailure.loadError 7)) :=
  claim10_load_error_propagates (⟨"L", "A", some []⟩ : Request Nat)
    [loaderFail] regA behTrivial 10 loaderFail 7 (by decide) rfl rfl

end Preserve
